import Mathlib

/-!
Verification of the WebModelDelivery resolver and packager.

The definitions below are shallow embeddings of the JavaScript / shell
source of the repository:

* `respondRange`, `collectParts`, `partBytes`, `readFull` embed the ranged
  and full reassembly paths shared by `model-sw.js` (`respondRange`,
  `respondFull`, `fetchShard`, `fetchShardSlice`) and
  `model-resolver-node.mjs` (`_respondRange`, `_respondFull`): both
  variants run the identical shard-selection loop and slicing logic.
* `packShards` / `chunks` embed Phase 4 of `model-packager.sh` (the
  byte-split loop around `split -b "$CHUNK_SIZE"` and the offset
  accumulation that builds the shard JSON records).
* The progress-state functions embed the corresponding functions of
  `model-sw.js` (`makeProgressState`, `initProgressFromFilemap`,
  `setFilesFromList`, `narrowManifest`, `trackFile`, `recordProgress`,
  `scheduleProgress`, `doBroadcast`, `finalizeProgress`); the Node
  variant in `model-resolver-node.mjs` is the same logic minus the
  timers.
* `nodeFetchShardBuf` embeds `_fetchShardBuf` of
  `model-resolver-node.mjs`; `swFetchShardTask` embeds the body of the
  in-flight task created in `fetchShard` of `model-sw.js`.
* `DedupStep` is a small-step semantics of the cooperative interleaving
  of concurrent `fetchShard` calls of `model-sw.js`, with one atomic
  step per synchronous segment between `await`s.

Byte buffers are `List Nat`; JavaScript `Map`s are association lists
(JS maps have unique keys and preserve insertion order, as do the
association-list operations used here).
-/

namespace WebModelDelivery

/-! ## Data model: shard lists and file entries (filemap §3) -/

/-- A shard record of a sharded file entry: `{ file, offset, size }`. -/
structure Shard where
  file : String
  offset : Nat
  size : Nat
deriving DecidableEq, Repr

/-- A sharded file entry: `{ size, shards }` (the fields used by the
reassembler; `sha256`/`cdn_file` play no role in range reads). -/
structure FileEntry where
  size : Nat
  shards : List Shard
deriving DecidableEq, Repr

/-- Concatenation of a list of byte buffers (`Blob`/`Buffer.concat`). -/
def concatAll : List (List Nat) → List Nat
  | [] => []
  | b :: rest => b ++ concatAll rest

/-- `respondFull` / `_respondFull`: the full read of a sharded entry
streams/concatenates the shard contents in listed order.  `store` maps a
shard's `file` name to the bytes served for it. -/
def readFull (store : String → List Nat) (shards : List Shard) : List Nat :=
  concatAll (shards.map fun s => store s.file)

/-- Well-formedness of a shard list against the shard store, starting at
absolute offset `off`: offsets are contiguous from `off` (filemap
invariant 3, with `off = 0` at the top) and each shard's stored content
has exactly its declared size (shard file format §6.2). -/
def shardsWF (store : String → List Nat) : Nat → List Shard → Prop
  | _, [] => True
  | off, sh :: rest =>
      sh.offset = off ∧ (store sh.file).length = sh.size ∧
        shardsWF store (off + sh.size) rest

/-- Sum of the declared shard sizes. -/
def totalSize (shards : List Shard) : Nat := (shards.map Shard.size).sum

/-! ## Range reassembly (`respondRange` of model-sw.js lines 1078-1118,
`_respondRange` of model-resolver-node.mjs lines 315-347) -/

/-- One element of the `parts` array built by the shard-selection loop.
`subEnd` is an integer because the JS computes
`Math.min(end, shard.offset + shard.size - 1) - shard.offset`, which is
`-1` for an empty shard. -/
structure Part where
  file : String
  subStart : Nat
  subEnd : Int
  shardSize : Nat
deriving DecidableEq, Repr

/-- The loop `for (const shard of entry.shards) { ... }`: skip shards
ending before `start` (`continue`), stop at the first shard beginning
after `e` (`break`), and record a sub-range for each covered shard. -/
def collectParts (start e : Nat) : List Shard → List Part
  | [] => []
  | sh :: rest =>
      let sEnd : Int := (sh.offset : Int) + (sh.size : Int) - 1
      if sEnd < (start : Int) then collectParts start e rest
      else if e < sh.offset then []
      else
        { file := sh.file,
          subStart := max start sh.offset - sh.offset,
          subEnd := min (e : Int) sEnd - (sh.offset : Int),
          shardSize := sh.size } :: collectParts start e rest

/-- Bytes produced for one part: the whole shard when the range spans it
end-to-end (`fetchShard` / the bare `Buffer`), otherwise the slice
`[subStart, subEnd]` of the shard (`fetchShardSlice` /
`Buffer.subarray(subStart, subEnd + 1)`). -/
def partBytes (store : String → List Nat) (p : Part) : List Nat :=
  if p.subStart = 0 ∧ p.subEnd = (p.shardSize : Int) - 1 then store p.file
  else ((store p.file).take (p.subEnd + 1).toNat).drop p.subStart

/-- The HTTP-shaped response produced by the range path. -/
structure RangeResponse where
  status : Nat
  contentRange : String
  body : List Nat
deriving DecidableEq, Repr

/-- `respondRange(entry, source, start, end)`: clamp `end` to
`size - 1`; reject invalid ranges with 416; otherwise select the covered
parts and return their concatenation with status 206. -/
def respondRange (store : String → List Nat) (entry : FileEntry)
    (start e0 : Nat) : RangeResponse :=
  let e := min e0 (entry.size - 1)
  if start > e ∨ start ≥ entry.size then
    { status := 416, contentRange := "bytes */" ++ toString entry.size, body := [] }
  else
    let parts := collectParts start e entry.shards
    if parts.isEmpty then
      { status := 416, contentRange := "bytes */" ++ toString entry.size, body := [] }
    else
      { status := 206,
        contentRange := "bytes " ++ toString start ++ "-" ++ toString e ++
          "/" ++ toString entry.size,
        body := concatAll (parts.map (partBytes store)) }

/-! ### Lemmas about the range path -/

theorem concatAll_append (a b : List (List Nat)) :
    concatAll (a ++ b) = concatAll a ++ concatAll b := by
  induction a with
  | nil => simp [concatAll]
  | cons x xs ih => simp [concatAll, ih]

theorem readFull_cons (store : String → List Nat) (sh : Shard) (rest : List Shard) :
    readFull store (sh :: rest) = store sh.file ++ readFull store rest := by
  simp [readFull, concatAll]

theorem readFull_length (store : String → List Nat) :
    ∀ (T : List Shard) (off : Nat), shardsWF store off T →
      (readFull store T).length = totalSize T := by
  intro T
  induction T with
  | nil => intro off _; simp [readFull, concatAll, totalSize]
  | cons sh rest ih =>
      intro off hwf
      obtain ⟨-, hlen, hrest⟩ := hwf
      rw [readFull_cons]
      simp only [List.length_append, hlen, ih _ hrest]
      simp [totalSize]

/-- Bytes of one emitted part, rewritten as a take/drop slice of the
shard content relative to the shard's absolute offset. -/
theorem partBytes_emit (store : String → List Nat) (f : String)
    (off sz start e : Nat)
    (hlen : (store f).length = sz)
    (h1 : start < off + sz) (h2 : off ≤ e) :
    partBytes store
      { file := f, subStart := max start off - off,
        subEnd := min (e : Int) ((off : Int) + (sz : Int) - 1) - (off : Int),
        shardSize := sz }
      = ((store f).take (e + 1 - off)).drop (start - off) := by
  set c := store f with hc
  by_cases hfull : (max start off - off = 0) ∧
      (min (e : Int) ((off : Int) + (sz : Int) - 1) - (off : Int) = (sz : Int) - 1)
  · have hs : start - off = 0 := by omega
    have hm : (off : Int) + (sz : Int) - 1 ≤ (e : Int) := by
      have := hfull.2
      omega
    have htake : sz ≤ e + 1 - off := by omega
    simp only [partBytes, hfull, if_pos, and_self]
    rw [hs, List.drop_zero, List.take_of_length_le (by omega : c.length ≤ e + 1 - off)]
  · simp only [partBytes]
    rw [if_neg hfull]
    have hsz : sz ≠ 0 := by
      intro h0
      apply hfull
      constructor
      · omega
      · subst h0; simp; omega
    have hsub : max start off - off = start - off := by omega
    rw [hsub]
    by_cases he : (e : Int) ≤ (off : Int) + (sz : Int) - 1
    · have : (min (e : Int) ((off : Int) + (sz : Int) - 1) - (off : Int) + 1).toNat
          = e + 1 - off := by omega
      rw [this]
    · have : (min (e : Int) ((off : Int) + (sz : Int) - 1) - (off : Int) + 1).toNat
          = sz := by omega
      rw [this]
      have h3 : c.length ≤ sz := by omega
      have h4 : c.length ≤ e + 1 - off := by omega
      rw [List.take_of_length_le h3, List.take_of_length_le h4]

/-- Core correctness of the shard-selection loop: the concatenation of
the per-part bytes is the `[start, e]` window of the tail's
concatenated contents, expressed relative to the tail's starting
offset `off`. -/
theorem collectParts_join (store : String → List Nat) :
    ∀ (T : List Shard) (off start e : Nat), shardsWF store off T → start ≤ e →
      concatAll ((collectParts start e T).map (partBytes store))
        = ((readFull store T).take (e + 1 - off)).drop (start - off) := by
  intro T
  induction T with
  | nil => intro off start e _ _; simp [collectParts, concatAll, readFull]
  | cons sh rest ih =>
      intro off start e hwf hse
      obtain ⟨hoff, hlen, hrest⟩ := hwf
      set c := store sh.file with hc
      have hclen : c.length = sh.size := hlen
      rw [readFull_cons]
      by_cases hskip : ((sh.offset : Int) + (sh.size : Int) - 1 < (start : Int))
      · -- shard ends before the range: `continue`
        have hskipN : off + sh.size ≤ start := by omega
        rw [collectParts]
        simp only [hskip, if_pos]
        rw [ih (off + sh.size) start e hrest hse]
        rw [List.take_append_eq_append_take, List.drop_append_eq_append_drop]
        have hlt : (c.take (e + 1 - off)).length = min (e + 1 - off) c.length :=
          List.length_take _ _
        have hd1 : (c.take (e + 1 - off)).length ≤ start - off := by
          rw [hlt]; omega
        rw [List.drop_eq_nil_of_le hd1, List.nil_append]
        by_cases hm : sh.size ≤ e + 1 - off
        · have h1 : e + 1 - off - c.length = e + 1 - (off + sh.size) := by omega
          have h2 : start - off - (c.take (e + 1 - off)).length
              = start - (off + sh.size) := by rw [hlt]; omega
          rw [h1, h2]
        · have h1 : e + 1 - off - c.length = 0 := by omega
          have h2 : e + 1 - (off + sh.size) = 0 := by omega
          rw [h1, h2]
          simp
      · by_cases hbreak : e < sh.offset
        · -- shard starts after the range: `break`
          rw [collectParts]
          simp only [hskip, if_neg, if_pos hbreak, if_false]
          have h1 : e + 1 - off = 0 := by omega
          simp [h1, concatAll]
        · -- covered shard: emit a part
          rw [collectParts]
          simp only [if_neg hskip, if_neg hbreak]
          rw [List.map_cons]
          rw [concatAll]
          have h1 : start < off + sh.size := by omega
          have h2 : off ≤ e := by omega
          have hpb := partBytes_emit store sh.file off sh.size start e hclen
            (by omega) (by omega)
          rw [hoff]
          rw [hpb]
          rw [ih (off + sh.size) start e hrest hse]
          have hz : start - (off + sh.size) = 0 := by omega
          rw [hz, List.drop_zero]
          rw [List.take_append_eq_append_take, List.drop_append_eq_append_drop]
          have hle : start - off ≤ (c.take (e + 1 - off)).length := by
            simp only [List.length_take, hclen]
            omega
          have hz2 : start - off - (c.take (e + 1 - off)).length = 0 := by omega
          rw [hz2, List.drop_zero]
          congr 2
          simp only [List.length_take, hclen]
          omega

/-- C1 helper: with a well-formed shard list the selection loop
reproduces exactly the `[start, e]` slice of the full read. -/
theorem collectParts_slice (store : String → List Nat) (shards : List Shard)
    (start e : Nat) (hwf : shardsWF store 0 shards) (hse : start ≤ e) :
    concatAll ((collectParts start e shards).map (partBytes store))
      = ((readFull store shards).take (e + 1)).drop start := by
  have := collectParts_join store shards 0 start e hwf hse
  simpa using this

/-- C1: For every sharded file entry whose shard list satisfies the
filemap invariants (offsets contiguous from 0, stored shard contents of
the declared sizes, sizes summing to the entry size) and every range
`0 ≤ start ≤ e ≤ size - 1`, the range read returns status 206 with a
body equal to bytes `[start..e]` of the concatenation of the shard
contents in listed order, i.e. the corresponding slice of a full read. -/
theorem respondRange_slice_of_full (store : String → List Nat)
    (entry : FileEntry) (start e : Nat)
    (hwf : shardsWF store 0 entry.shards)
    (hsum : totalSize entry.shards = entry.size)
    (hse : start ≤ e) (hend : e < entry.size) :
    (respondRange store entry start e).status = 206 ∧
    (respondRange store entry start e).body
      = ((readFull store entry.shards).take (e + 1)).drop start := by
  have hmin : min e (entry.size - 1) = e := by omega
  have hcond : ¬ (start > e ∨ start ≥ entry.size) := by omega
  have hslice := collectParts_slice store entry.shards start e hwf hse
  have hlenF : (readFull store entry.shards).length = entry.size := by
    rw [readFull_length store entry.shards 0 hwf, hsum]
  have hne : (collectParts start e entry.shards).isEmpty = false := by
    rcases h : collectParts start e entry.shards with _ | ⟨p, ps⟩
    · exfalso
      rw [h] at hslice
      simp only [List.map_nil, concatAll] at hslice
      have hlen0 := congrArg List.length hslice
      simp only [List.length_nil, List.length_drop, List.length_take, hlenF] at hlen0
      omega
    · simp [List.isEmpty]
  have hresp : respondRange store entry start e =
      { status := 206,
        contentRange := "bytes " ++ toString start ++ "-" ++ toString e ++
          "/" ++ toString entry.size,
        body := ((readFull store entry.shards).take (e + 1)).drop start } := by
    simp only [respondRange, hmin]
    rw [if_neg hcond]
    simp only [hne, Bool.false_eq_true, if_false]
    rw [hslice]
  rw [hresp]
  exact ⟨rfl, rfl⟩

/-- Concrete shard store used by the witnesses: two shards of 4 and 3
bytes. -/
def storeW : String → List Nat := fun f =>
  if f = "s0" then [10, 11, 12, 13]
  else if f = "s1" then [20, 21, 22]
  else []

/-- Concrete sharded entry used by the witnesses. -/
def entryW : FileEntry :=
  { size := 7, shards := [⟨"s0", 0, 4⟩, ⟨"s1", 4, 3⟩] }

/-- C1 witness: the theorem applied to a concrete two-shard entry and
the cross-shard range `[2, 5]`. -/
theorem respondRange_slice_of_full_witness :
    shardsWF storeW 0 entryW.shards ∧ totalSize entryW.shards = entryW.size ∧
    (respondRange storeW entryW 2 5).status = 206 ∧
    (respondRange storeW entryW 2 5).body
      = ((readFull storeW entryW.shards).take 6).drop 2 := by
  have h1 : shardsWF storeW 0 entryW.shards := by
    simp [entryW, shardsWF, storeW]
  have h2 : totalSize entryW.shards = entryW.size := by decide
  have h34 := respondRange_slice_of_full storeW entryW 2 5 h1 h2
    (by decide) (by decide)
  exact ⟨h1, h2, h34.1, h34.2⟩

/-- C5: a ranged read whose start exceeds its end, or whose start is at
least the entry size, yields status 416 with `Content-Range: bytes */size`
and an empty body. -/
theorem respondRange_invalid_416 (store : String → List Nat)
    (entry : FileEntry) (start e0 : Nat)
    (h : e0 < start ∨ entry.size ≤ start) :
    respondRange store entry start e0 =
      { status := 416, contentRange := "bytes */" ++ toString entry.size,
        body := [] } := by
  have hcond : start > min e0 (entry.size - 1) ∨ start ≥ entry.size := by omega
  simp only [respondRange]
  rw [if_pos hcond]

/-- C5 witness: `start = size = 7` on the concrete entry returns 416
with `Content-Range: bytes */7` and no body. -/
theorem respondRange_invalid_416_witness :
    entryW.size ≤ 7 ∧
    respondRange storeW entryW 7 9 =
      { status := 416, contentRange := "bytes */" ++ toString entryW.size,
        body := [] } :=
  ⟨by decide, respondRange_invalid_416 storeW entryW 7 9 (Or.inr (by decide))⟩

/-! ## Packager Phase 4 byte-split (model-packager.sh lines 689-714)

`split -b "$CHUNK_SIZE"` cuts the input into successive chunks of
`CHUNK_SIZE` bytes (the last chunk may be shorter); the shell loop then
walks the produced shard files in name order, reading each one's size
with `get_size` and hash with `file_sha256`, accumulating
`shard_offset=$((shard_offset + ss))`. -/

/-- Successive chunks of `C` bytes (semantics of `split -b C`), with the
input length as recursion fuel (sufficient whenever `0 < C`). -/
def chunksGo (C : Nat) : Nat → List Nat → List (List Nat)
  | 0, _ => []
  | _ + 1, [] => []
  | fuel + 1, a :: l => (a :: l).take C :: chunksGo C fuel ((a :: l).drop C)

/-- The chunk list produced by `split -b C` on `content`. -/
def chunks (C : Nat) (content : List Nat) : List (List Nat) :=
  chunksGo C content.length content

/-- A shard record written to the filemap by the byte-split phase:
`{"file": ..., "offset": ..., "size": ..., "sha256": ...}`. -/
structure PackShard where
  file : String
  offset : Nat
  size : Nat
  sha256 : String
deriving DecidableEq, Repr

/-- `split -d -a 3` numeric suffixes `000`, `001`, ... -/
def pad3 (i : Nat) : String :=
  (if i < 10 then "00" else if i < 100 then "0" else "") ++ toString i

/-- Shard file name `{basename}.shard.NNN`. -/
def shardFileName (fn : String) (i : Nat) : String :=
  fn ++ ".shard." ++ pad3 i

/-- The shell loop over the produced shard files: one record per chunk,
offsets accumulated from `off`, sizes read from the written files,
hashes computed per shard. -/
def buildGo (hash : List Nat → String) (fn : String) :
    Nat → Nat → List (List Nat) → List PackShard
  | _, _, [] => []
  | idx, off, ch :: rest =>
      { file := shardFileName fn idx, offset := off, size := ch.length,
        sha256 := hash ch } :: buildGo hash fn (idx + 1) (off + ch.length) rest

/-- The full byte-split phase for one over-sized file. -/
def packShards (hash : List Nat → String) (C : Nat) (fn : String)
    (content : List Nat) : List PackShard :=
  buildGo hash fn 0 0 (chunks C content)

/-- Offset contiguity from a given starting offset. -/
def offsetChain : Nat → List PackShard → Prop
  | _, [] => True
  | off, r :: rest => r.offset = off ∧ offsetChain (off + r.size) rest

theorem chunksGo_nil (C fuel : Nat) : chunksGo C fuel [] = [] := by
  cases fuel <;> rfl

theorem chunksGo_join (C : Nat) (hC : 0 < C) :
    ∀ (fuel : Nat) (l : List Nat), l.length ≤ fuel →
      concatAll (chunksGo C fuel l) = l := by
  intro fuel
  induction fuel with
  | zero =>
      intro l hl
      have : l = [] := by
        cases l with
        | nil => rfl
        | cons a t => simp at hl
      rw [this]
      rfl
  | succ n ih =>
      intro l hl
      cases l with
      | nil => rfl
      | cons a t =>
          simp only [List.length_cons] at hl
          rw [chunksGo, concatAll]
          rw [ih ((a :: t).drop C)
            (by simp only [List.length_drop, List.length_cons]; omega)]
          exact List.take_append_drop C (a :: t)

theorem chunksGo_ne_nil (C fuel : Nat) (a : Nat) (l : List Nat)
    (hfuel : 0 < fuel) : chunksGo C fuel (a :: l) ≠ [] := by
  cases fuel with
  | zero => omega
  | succ n => simp [chunksGo]

/-- Every chunk except the last has exactly `C` bytes. -/
theorem chunksGo_size (C : Nat) (hC : 0 < C) :
    ∀ (fuel : Nat) (l : List Nat), l.length ≤ fuel →
      ∀ (i : Nat) (ch : List Nat), (chunksGo C fuel l).get? i = some ch →
        i + 1 < (chunksGo C fuel l).length → ch.length = C := by
  intro fuel
  induction fuel with
  | zero =>
      intro l hl i ch hget _
      simp [chunksGo] at hget
  | succ n ih =>
      intro l hl i ch hget hlt
      cases l with
      | nil => simp [chunksGo] at hget
      | cons a t =>
          rw [chunksGo] at hget hlt
          cases i with
          | zero =>
              simp only [List.get?] at hget
              injection hget with hch
              simp only [List.length_cons] at hlt
              have hrest : chunksGo C n ((a :: t).drop C) ≠ [] := by
                intro hnil
                rw [hnil] at hlt
                simp at hlt
              have hdropne : (a :: t).drop C ≠ [] := by
                intro hnil
                rw [hnil, chunksGo_nil] at hrest
                exact hrest rfl
              have hlen : C < (a :: t).length := by
                by_contra hle
                exact hdropne (List.drop_eq_nil_of_le (by omega))
              rw [← hch]
              simp only [List.length_take]
              omega
          | succ j =>
              simp only [List.get?] at hget
              simp only [List.length_cons] at hlt
              simp only [List.length_cons] at hl
              exact ih ((a :: t).drop C)
                (by simp only [List.length_drop, List.length_cons]; omega)
                j ch hget (by omega)

theorem buildGo_chain (hash : List Nat → String) (fn : String) :
    ∀ (cs : List (List Nat)) (idx off : Nat),
      offsetChain off (buildGo hash fn idx off cs) := by
  intro cs
  induction cs with
  | nil => intro idx off; trivial
  | cons ch rest ih =>
      intro idx off
      exact ⟨rfl, ih (idx + 1) (off + ch.length)⟩

theorem buildGo_length (hash : List Nat → String) (fn : String) :
    ∀ (cs : List (List Nat)) (idx off : Nat),
      (buildGo hash fn idx off cs).length = cs.length := by
  intro cs
  induction cs with
  | nil => intro idx off; rfl
  | cons ch rest ih => intro idx off; simp [buildGo, ih]

theorem buildGo_sizes (hash : List Nat → String) (fn : String) :
    ∀ (cs : List (List Nat)) (idx off : Nat),
      (buildGo hash fn idx off cs).map PackShard.size = cs.map List.length := by
  intro cs
  induction cs with
  | nil => intro idx off; rfl
  | cons ch rest ih => intro idx off; simp [buildGo, ih]

theorem buildGo_get? (hash : List Nat → String) (fn : String) :
    ∀ (cs : List (List Nat)) (idx off i : Nat) (r : PackShard),
      (buildGo hash fn idx off cs).get? i = some r →
        ∃ ch, cs.get? i = some ch ∧ r.size = ch.length ∧
          r.sha256 = hash ch ∧ r.file = shardFileName fn (idx + i) := by
  intro cs
  induction cs with
  | nil => intro idx off i r h; simp [buildGo] at h
  | cons ch rest ih =>
      intro idx off i r h
      cases i with
      | zero =>
          simp only [buildGo, List.get?] at h
          injection h with hr
          exact ⟨ch, rfl, by rw [← hr], by rw [← hr], by rw [← hr, Nat.add_zero]⟩
      | succ j =>
          simp only [buildGo, List.get?] at h
          obtain ⟨ch', hch', hsz, hsha, hfile⟩ := ih (idx + 1) (off + ch.length) j r h
          exact ⟨ch', hch', hsz, hsha, by rw [hfile]; congr 1; omega⟩

theorem offsetChain_get? :
    ∀ (recs : List PackShard) (off i : Nat) (r r' : PackShard),
      offsetChain off recs → recs.get? i = some r →
        recs.get? (i + 1) = some r' → r'.offset = r.offset + r.size := by
  intro recs
  induction recs with
  | nil => intro off i r r' _ h _; simp at h
  | cons a rest ih =>
      intro off i r r' hchain hr hr'
      obtain ⟨ha, hrest⟩ := hchain
      cases i with
      | zero =>
          simp only [List.get?] at hr hr'
          injection hr with hr
          cases rest with
          | nil => simp at hr'
          | cons b rest' =>
              simp only [List.get?] at hr'
              injection hr' with hr'
              obtain ⟨hb, -⟩ := hrest
              rw [← hr, ← hr', ha, hb]
      | succ j =>
          simp only [List.get?] at hr hr'
          exact ih (off + a.size) j r r' hrest hr hr'

theorem concatAll_length (ls : List (List Nat)) :
    (concatAll ls).length = (ls.map List.length).sum := by
  induction ls with
  | nil => rfl
  | cons b rest ih => simp [concatAll, ih]

/-- C4: the byte-split phase of the packager, applied to a file larger
than the CDN chunk size, emits a nonempty shard list whose first offset
is 0, whose offsets are contiguous (each offset is the previous offset
plus the previous size), whose sizes sum to the file size, in which
every shard but the last has exactly `C` bytes, and in which every
record carries the shard file name, offset, size and sha256 of its
chunk. -/
theorem packShards_byte_split (hash : List Nat → String) (C : Nat)
    (fn : String) (content : List Nat) (hC : 0 < C)
    (hbig : C < content.length) :
    packShards hash C fn content ≠ [] ∧
    (∀ r, (packShards hash C fn content).get? 0 = some r → r.offset = 0) ∧
    (∀ i r r', (packShards hash C fn content).get? i = some r →
      (packShards hash C fn content).get? (i + 1) = some r' →
        r'.offset = r.offset + r.size) ∧
    ((packShards hash C fn content).map PackShard.size).sum = content.length ∧
    (∀ i r, (packShards hash C fn content).get? i = some r →
      i + 1 < (packShards hash C fn content).length → r.size = C) ∧
    (∀ r ∈ packShards hash C fn content, ∃ i ch,
      (chunks C content).get? i = some ch ∧ r.file = shardFileName fn i ∧
        r.offset + ch.length = r.offset + r.size ∧ r.size = ch.length ∧
        r.sha256 = hash ch) := by
  have hchain : offsetChain 0 (packShards hash C fn content) :=
    buildGo_chain hash fn (chunks C content) 0 0
  have hlen : (packShards hash C fn content).length = (chunks C content).length :=
    buildGo_length hash fn (chunks C content) 0 0
  have hcne : chunks C content ≠ [] := by
    cases hcontent : content with
    | nil => rw [hcontent] at hbig; simp at hbig
    | cons a t =>
        unfold chunks
        exact chunksGo_ne_nil C (a :: t).length a t (by simp)
  have hne : packShards hash C fn content ≠ [] := by
    intro h
    apply hcne
    have := hlen
    rw [h] at this
    simp only [List.length_nil] at this
    exact List.eq_nil_of_length_eq_zero this.symm
  refine ⟨hne, ?_, ?_, ?_, ?_, ?_⟩
  · intro r hr
    rcases hrec : packShards hash C fn content with _ | ⟨a, rest⟩
    · rw [hrec] at hr; simp at hr
    · rw [hrec] at hr
      simp only [List.get?] at hr
      injection hr with hr
      rw [hrec] at hchain
      rw [← hr]
      exact hchain.1
  · intro i r r' hr hr'
    exact offsetChain_get? (packShards hash C fn content) 0 i r r' hchain hr hr'
  · rw [packShards, buildGo_sizes hash fn (chunks C content) 0 0,
      ← concatAll_length, chunks,
      chunksGo_join C hC content.length content (le_refl _)]
  · intro i r hr hlt
    obtain ⟨ch, hch, hsz, -, -⟩ :=
      buildGo_get? hash fn (chunks C content) 0 0 i r hr
    rw [hsz]
    have hlt2 : i + 1 < (chunksGo C content.length content).length := by
      show i + 1 < (chunks C content).length
      omega
    exact chunksGo_size C hC content.length content (le_refl _) i ch hch hlt2
  · intro r hr
    obtain ⟨i, hi⟩ := List.mem_iff_get?.mp hr
    obtain ⟨ch, hch, hsz, hsha, hfile⟩ :=
      buildGo_get? hash fn (chunks C content) 0 0 i r hi
    exact ⟨i, ch, hch, by rw [hfile, Nat.zero_add], by omega, hsz, hsha⟩

/-- Concrete hash used by the C4 witness. -/
def hashW : List Nat → String := fun l => toString l.length

/-- C4 witness: the theorem applied to a 5-byte file and chunk size 2
(three shards of sizes 2, 2, 1). -/
theorem packShards_byte_split_witness :
    packShards hashW 2 "f" [1, 2, 3, 4, 5] ≠ [] ∧
    ((packShards hashW 2 "f" [1, 2, 3, 4, 5]).map PackShard.size).sum = 5 :=
  ⟨(packShards_byte_split hashW 2 "f" [1, 2, 3, 4, 5] (by decide) (by decide)).1,
   (packShards_byte_split hashW 2 "f" [1, 2, 3, 4, 5] (by decide)
     (by decide)).2.2.2.1⟩

/-! ## Filemap document and progress state (model-sw.js lines 695-962,
model-resolver-node.mjs lines 104-537)

JS `Map`s are modeled as association lists: unique keys, insertion
order preserved, `Map.set` replaces in place. -/

/-- A filemap file entry as used by the progress machinery (`size`). -/
structure FmEntry where
  size : Nat
deriving DecidableEq, Repr

/-- A manifest entry `{ files: [virtual_path...], size }`. -/
structure ManifestEntry where
  files : List String
  size : Nat
deriving DecidableEq, Repr

/-- The parsed filemap document (the fields the resolver reads). -/
structure Filemap where
  files : List (String × FmEntry)
  manifests : List (String × ManifestEntry)
deriving DecidableEq, Repr

/-- Association-list lookup (`Map.get` / object property access). -/
def alookup {β : Type} : List (String × β) → String → Option β
  | [], _ => none
  | (k, v) :: rest, key => if k = key then some v else alookup rest key

/-- Association-list update (`Map.set`): replaces in place, else
appends. -/
def assocSet {β : Type} : List (String × β) → String → β → List (String × β)
  | [], k, v => [(k, v)]
  | (k', v') :: rest, k, v =>
      if k' = k then (k, v) :: rest else (k', v') :: assocSet rest k v

/-- Per-file progress record `{ size, loaded }`. -/
structure FileProg where
  size : Nat
  loaded : Nat
deriving DecidableEq, Repr

/-- Progress mode: `'explicit' | 'adaptive' | 'fallback'`. -/
inductive Mode where
  | explicit
  | adaptive
  | fallback
deriving DecidableEq, Repr

/-- The per-source progress state (`makeProgressState` fields; the two
timer handles are modeled as armed/not-armed flags and
`performance.now()` readings as naturals). -/
structure ProgressState where
  mode : Mode
  totalBytes : Nat
  loadedBytes : Nat
  files : List (String × FileProg)
  activeFiles : List String
  candidates : List String
  selectedManifest : Option String
  pendingFetches : Nat
  idleTimer : Bool
  finalized : Bool
  lastBroadcast : Nat
  broadcastTimer : Bool
  lastFile : String
deriving DecidableEq, Repr

/-- `makeProgressState(manifestName)`. -/
def makeProgressState (manifestName : String) : ProgressState :=
  { mode := if manifestName = "" then Mode.adaptive else Mode.explicit,
    totalBytes := 0, loadedBytes := 0, files := [], activeFiles := [],
    candidates := [],
    selectedManifest := if manifestName = "" then none else some manifestName,
    pendingFetches := 0, idleTimer := false, finalized := false,
    lastBroadcast := 0, broadcastTimer := false, lastFile := "" }

/-- The loop of `setFilesFromList`: for each virtual path present in the
filemap, set `files[vp] = { size, loaded: 0 }` and add the size to the
running total. -/
def setFilesGo (fm : Filemap) :
    List String → List (String × FileProg) → Nat →
      List (String × FileProg) × Nat
  | [], acc, tot => (acc, tot)
  | vp :: rest, acc, tot =>
      match alookup fm.files vp with
      | none => setFilesGo fm rest acc tot
      | some en => setFilesGo fm rest (assocSet acc vp ⟨en.size, 0⟩) (tot + en.size)

/-- `setFilesFromList(st, filemap, vpList)`: clears `files`, resets
`totalBytes`, repopulates from `vpList`. -/
def setFilesFromList (st : ProgressState) (fm : Filemap)
    (vpList : List String) : ProgressState :=
  let r := setFilesGo fm vpList [] 0
  { st with files := r.1, totalBytes := r.2 }

/-- `manifests[n].size` (0 when absent; the callers only apply it to
names present in `manifests`). -/
def mSize (fm : Filemap) (n : String) : Nat :=
  match alookup fm.manifests n with
  | some m => m.size
  | none => 0

/-- `names.reduce((a, b) => manifests[a].size >= manifests[b].size ? a : b)`. -/
def reduceLargest (fm : Filemap) : List String → String
  | [] => ""
  | n :: rest => rest.foldl (fun a b => if mSize fm b ≤ mSize fm a then a else b) n

/-- `manifests[n].files` (empty when absent). -/
def manifestFilesOf (fm : Filemap) (n : String) : List String :=
  match alookup fm.manifests n with
  | some m => m.files
  | none => []

/-- `initProgressFromFilemap` / `_initProgressFromFilemap`: explicit
mode keeps its mode and selection and takes the named manifest's files,
falling back to all files when the name is missing; otherwise adaptive
(largest manifest) when manifests exist, else fallback (all files). -/
def initProgressFromFilemap (st : ProgressState) (fm : Filemap) : ProgressState :=
  let names := fm.manifests.map Prod.fst
  if st.mode = Mode.explicit then
    match st.selectedManifest with
    | some name =>
        match alookup fm.manifests name with
        | some m => setFilesFromList st fm m.files
        | none => setFilesFromList st fm (fm.files.map Prod.fst)
    | none => setFilesFromList st fm (fm.files.map Prod.fst)
  else if names ≠ [] then
    let largest := reduceLargest fm names
    setFilesFromList
      { st with
        mode := Mode.adaptive
        candidates := names
        selectedManifest := some largest }
      fm (manifestFilesOf fm largest)
  else
    setFilesFromList { st with mode := Mode.fallback } fm (fm.files.map Prod.fst)

/-- The restore loop of `narrowManifest`: for each entry of the freshly
repopulated `files` map, restore `loaded = min(saved, size)` and
accumulate the new `loadedBytes`. -/
def restoreLoaded (saved : List (String × Nat)) :
    List (String × FileProg) → List (String × FileProg) × Nat
  | [] => ([], 0)
  | (vp, f) :: rest =>
      let l := match alookup saved vp with
               | some old => min old f.size
               | none => f.loaded
      let r := restoreLoaded saved rest
      ((vp, { f with loaded := l }) :: r.1, l + r.2)

/-- `narrowManifest(pathPrefix, relPath)` (model-sw.js lines 828-858):
filter the candidates to those whose manifest contains `relPath`; on a
strict shrink, reselect the largest remaining manifest and, if the
selection changed, repopulate `files` from it, restoring saved per-file
loaded counts clamped at the new sizes. -/
def narrowManifest (fm : Filemap) (relPath : String)
    (st : ProgressState) : ProgressState :=
  if st.mode ≠ Mode.adaptive ∨ st.finalized then st
  else
    let remaining := st.candidates.filter fun n =>
      match alookup fm.manifests n with
      | some m => decide (relPath ∈ m.files)
      | none => false
    if remaining.length = 0 ∨ remaining.length = st.candidates.length then st
    else
      let largest := reduceLargest fm remaining
      let st1 := { st with candidates := remaining }
      if some largest = st1.selectedManifest then st1
      else
        let saved := st1.files.map fun p => (p.1, p.2.loaded)
        let r := setFilesGo fm (manifestFilesOf fm largest) [] 0
        let rl := restoreLoaded saved r.1
        { st1 with
          selectedManifest := some largest
          files := rl.1
          totalBytes := r.2
          loadedBytes := rl.2 }

/-- `trackFile(pathPrefix, relPath, fileSize)`. -/
def trackFile (relPath : String) (fileSize : Nat)
    (st : ProgressState) : ProgressState :=
  let st1 := { st with activeFiles :=
    if relPath ∈ st.activeFiles then st.activeFiles
    else st.activeFiles ++ [relPath] }
  if (alookup st1.files relPath).isSome then st1
  else
    { st1 with
      files := st1.files ++ [(relPath, ⟨fileSize, 0⟩)]
      totalBytes := st1.totalBytes + fileSize }

/-- `recordProgress` / `_recordProgress`: clamp the per-file counter at
the file size and add only the clamped (positive) delta to
`loadedBytes`. -/
def recordProgress (relPath : String) (bytes : Nat)
    (st : ProgressState) : ProgressState :=
  match alookup st.files relPath with
  | none => st
  | some f =>
      let newLoaded := min (f.loaded + bytes) f.size
      let files2 := assocSet st.files relPath { f with loaded := newLoaded }
      if f.loaded < newLoaded then
        { st with
          files := files2
          loadedBytes := st.loadedBytes + (newLoaded - f.loaded)
          lastFile := relPath }
      else { st with files := files2 }

/-- `Math.min(100, Math.round(loaded / total * 100))` (round half up),
0 when `total = 0`. -/
def percentOf (loaded total : Nat) : Nat :=
  if 0 < total then min 100 ((200 * loaded + total) / (2 * total)) else 0

/-- One `MODEL_SW_PROGRESS` message (`pathPfx` stands for the JS
`pathPrefix` field). -/
structure ProgressMsg where
  pathPfx : String
  file : String
  fileLoaded : Nat
  fileTotal : Nat
  modelLoaded : Nat
  modelTotal : Nat
  percent : Nat
  done : Bool
  manifest : Option String
  mode : Mode
deriving DecidableEq, Repr

/-- `doBroadcast(pathPrefix, st)`: stamp `lastBroadcast` and emit the
message built from the current state. -/
def doBroadcast (pp : String) (now : Nat)
    (st : ProgressState) : ProgressState × ProgressMsg :=
  ({ st with lastBroadcast := now },
   { pathPfx := pp, file := st.lastFile,
     fileLoaded := ((alookup st.files st.lastFile).map FileProg.loaded).getD 0,
     fileTotal := ((alookup st.files st.lastFile).map FileProg.size).getD 0,
     modelLoaded := st.loadedBytes, modelTotal := st.totalBytes,
     percent := percentOf st.loadedBytes st.totalBytes,
     done := st.finalized ||
       (decide (st.totalBytes ≤ st.loadedBytes) && decide (0 < st.totalBytes)),
     manifest := st.selectedManifest, mode := st.mode })

/-- `scheduleProgress(pathPrefix)`: when done (finalized, or loaded has
reached a positive total) broadcast immediately, bypassing the
throttle; else broadcast if 250ms elapsed; else arm the trailing
timer (whose later firing is a separate `doBroadcast`). -/
def scheduleProgress (pp : String) (now : Nat)
    (st : ProgressState) : ProgressState × Option ProgressMsg :=
  let isDone := st.finalized ||
    (decide (st.totalBytes ≤ st.loadedBytes) && decide (0 < st.totalBytes))
  if isDone then
    let r := doBroadcast pp now { st with broadcastTimer := false }
    (r.1, some r.2)
  else if 250 ≤ now - st.lastBroadcast then
    let r := doBroadcast pp now st
    (r.1, some r.2)
  else if st.broadcastTimer = false then
    ({ st with broadcastTimer := true }, none)
  else (st, none)

/-- The finalization loop over `activeFiles`: mark each tracked active
file fully loaded and sum their sizes. -/
def finalizeFilesGo :
    List String → List (String × FileProg) → Nat →
      List (String × FileProg) × Nat
  | [], fl, tot => (fl, tot)
  | vp :: rest, fl, tot =>
      match alookup fl vp with
      | some f =>
          finalizeFilesGo rest (assocSet fl vp { f with loaded := f.size })
            (tot + f.size)
      | none => finalizeFilesGo rest fl tot

/-- `finalizeProgress(pathPrefix, st)`: a no-op when already finalized;
otherwise set `finalized`, cancel the timers, shrink the denominator to
the requested files, saturate `loadedBytes` and broadcast once. -/
def finalizeProgress (pp : String) (now : Nat)
    (st : ProgressState) : ProgressState × List ProgressMsg :=
  if st.finalized then (st, [])
  else
    let st1 := { st with
      finalized := true
      idleTimer := false
      broadcastTimer := false }
    let r := finalizeFilesGo st1.activeFiles st1.files 0
    let total := if r.2 = 0 then st1.loadedBytes else r.2
    let st2 := { st1 with
      files := r.1
      totalBytes := total
      loadedBytes := total }
    let b := doBroadcast pp now st2
    (b.1, [b.2])

/-- Sum of the per-file loaded counters. -/
def sumLoaded (l : List (String × FileProg)) : Nat :=
  (l.map fun p => p.2.loaded).sum

/-- `files[vp].size` (0 when absent). -/
def fmSizeOf (fm : Filemap) (vp : String) : Nat :=
  match alookup fm.files vp with
  | some en => en.size
  | none => 0

/-! ### Association-list lemmas -/

theorem alookup_assocSet {β : Type} (l : List (String × β)) (k k' : String) (v : β) :
    alookup (assocSet l k v) k' = if k = k' then some v else alookup l k' := by
  induction l with
  | nil => simp [assocSet, alookup]
  | cons p rest ih =>
      obtain ⟨k0, v0⟩ := p
      by_cases h0 : k0 = k
      · subst h0
        simp only [assocSet, if_pos rfl]
        by_cases h1 : k0 = k' <;> simp [alookup, h1]
      · simp only [assocSet, if_neg h0]
        by_cases h1 : k0 = k'
        · subst h1
          have : ¬ k = k0 := fun h => h0 h.symm
          simp [alookup, this]
        · simp [alookup, h1, ih]

theorem mem_assocSet {β : Type} (l : List (String × β)) (k : String) (v : β)
    (p : String × β) (hp : p ∈ assocSet l k v) : p = (k, v) ∨ p ∈ l := by
  induction l with
  | nil => simp [assocSet] at hp; exact Or.inl hp
  | cons q rest ih =>
      obtain ⟨k0, v0⟩ := q
      by_cases h0 : k0 = k
      · simp only [assocSet, if_pos h0] at hp
        rcases List.mem_cons.mp hp with h | h
        · exact Or.inl h
        · exact Or.inr (List.mem_cons_of_mem _ h)
      · simp only [assocSet, if_neg h0] at hp
        rcases List.mem_cons.mp hp with h | h
        · exact Or.inr (by rw [h]; exact List.mem_cons_self _ _)
        · rcases ih h with h1 | h1
          · exact Or.inl h1
          · exact Or.inr (List.mem_cons_of_mem _ h1)

theorem alookup_mem {β : Type} (l : List (String × β)) (k : String) (v : β)
    (h : alookup l k = some v) : (k, v) ∈ l := by
  induction l with
  | nil => simp [alookup] at h
  | cons p rest ih =>
      obtain ⟨k0, v0⟩ := p
      by_cases h0 : k0 = k
      · subst h0
        simp only [alookup, if_pos rfl] at h
        injection h with h
        subst h
        exact List.mem_cons_self _ _
      · simp only [alookup, if_neg h0] at h
        exact List.mem_cons_of_mem _ (ih h)

theorem alookup_self_of_nodup {β : Type} :
    ∀ (l : List (String × β)), (l.map Prod.fst).Nodup →
      ∀ (k : String) (v : β), (k, v) ∈ l → alookup l k = some v := by
  intro l
  induction l with
  | nil => intro _ k v h; simp at h
  | cons p rest ih =>
      intro hnd k v hmem
      obtain ⟨k0, v0⟩ := p
      simp only [List.map_cons, List.nodup_cons] at hnd
      rcases List.mem_cons.mp hmem with h | h
      · injection h with h1 h2
        subst h1; subst h2
        simp [alookup]
      · by_cases h0 : k0 = k
        · exfalso
          subst h0
          exact hnd.1 (List.mem_map.mpr ⟨(k0, v), h, rfl⟩)
        · simp only [alookup, if_neg h0]
          exact ih hnd.2 k v h

theorem assocSet_fresh {β : Type} :
    ∀ (l : List (String × β)) (k : String) (v : β),
      k ∉ l.map Prod.fst → assocSet l k v = l ++ [(k, v)] := by
  intro l
  induction l with
  | nil => intro k v _; rfl
  | cons p rest ih =>
      intro k v hk
      obtain ⟨k0, v0⟩ := p
      simp only [List.map_cons, List.mem_cons] at hk
      push_neg at hk
      have h0 : k0 ≠ k := fun h => hk.1 h.symm
      simp only [assocSet, if_neg h0, List.cons_append]
      rw [ih k v hk.2]

theorem alookup_map_loaded (l : List (String × FileProg)) (k : String) :
    alookup (l.map fun p => (p.1, p.2.loaded)) k
      = (alookup l k).map FileProg.loaded := by
  induction l with
  | nil => simp [alookup]
  | cons p rest ih =>
      obtain ⟨k0, f0⟩ := p
      by_cases h0 : k0 = k
      · subst h0; simp [alookup]
      · simp [alookup, h0, ih]

theorem alookup_append_ne {β : Type} :
    ∀ (l1 l2 : List (String × β)) (k k' : String) (v : β), k' ≠ k →
      alookup (l1 ++ (k, v) :: l2) k' = alookup (l1 ++ l2) k' := by
  intro l1
  induction l1 with
  | nil =>
      intro l2 k k' v hne
      have : ¬ k = k' := fun h => hne h.symm
      simp [alookup, this]
  | cons p rest ih =>
      intro l2 k k' v hne
      obtain ⟨k0, v0⟩ := p
      by_cases h0 : k0 = k'
      · simp [alookup, h0]
      · simp only [List.cons_append, alookup, if_neg h0]
        exact ih l2 k k' v hne

theorem alookup_split {β : Type} :
    ∀ (l : List (String × β)) (k : String) (v : β), alookup l k = some v →
      ∃ l1 l2, l = l1 ++ (k, v) :: l2 ∧ k ∉ l1.map Prod.fst := by
  intro l
  induction l with
  | nil => intro k v h; simp [alookup] at h
  | cons p rest ih =>
      intro k v h
      obtain ⟨k0, v0⟩ := p
      by_cases h0 : k0 = k
      · subst h0
        simp only [alookup, if_pos rfl] at h
        injection h with h
        subst h
        exact ⟨[], rest, rfl, by simp⟩
      · simp only [alookup, if_neg h0] at h
        obtain ⟨l1, l2, heq, hnot⟩ := ih k v h
        refine ⟨(k0, v0) :: l1, l2, by rw [heq, List.cons_append], ?_⟩
        simp only [List.map_cons, List.mem_cons]
        push_neg
        exact ⟨fun hk => h0 hk.symm, hnot⟩

theorem sumLoaded_append (a b : List (String × FileProg)) :
    sumLoaded (a ++ b) = sumLoaded a + sumLoaded b := by
  simp [sumLoaded]

theorem sumLoaded_cons (p : String × FileProg) (l : List (String × FileProg)) :
    sumLoaded (p :: l) = p.2.loaded + sumLoaded l := by
  simp [sumLoaded]

theorem sumLoaded_cons2 (vp : String) (f : FileProg)
    (l : List (String × FileProg)) :
    sumLoaded ((vp, f) :: l) = f.loaded + sumLoaded l := by
  simp [sumLoaded]

/-- C10: `recordProgress` clamps the per-file counter at the file size
and adds exactly the clamped delta to `loadedBytes`; it preserves the
invariant that no tracked file's loaded count exceeds its size, so
repeated or over-counted byte reports never push a counter past the
declared size. -/
theorem recordProgress_clamped (relPath : String) (bytes : Nat)
    (st : ProgressState) (f : FileProg)
    (hf : alookup st.files relPath = some f) :
    alookup (recordProgress relPath bytes st).files relPath
      = some { f with loaded := min (f.loaded + bytes) f.size } ∧
    min (f.loaded + bytes) f.size ≤ f.size ∧
    (recordProgress relPath bytes st).loadedBytes
      = st.loadedBytes + (min (f.loaded + bytes) f.size - f.loaded) ∧
    ((∀ p ∈ st.files, p.2.loaded ≤ p.2.size) →
      ∀ p ∈ (recordProgress relPath bytes st).files, p.2.loaded ≤ p.2.size) := by
  have hfiles : (recordProgress relPath bytes st).files
      = assocSet st.files relPath
          { f with loaded := min (f.loaded + bytes) f.size } := by
    simp only [recordProgress, hf]
    by_cases h : f.loaded < min (f.loaded + bytes) f.size <;> simp [h]
  refine ⟨?_, by omega, ?_, ?_⟩
  · rw [hfiles, alookup_assocSet]
    simp
  · simp only [recordProgress, hf]
    by_cases h : f.loaded < min (f.loaded + bytes) f.size
    · simp [h]
    · have h0 : min (f.loaded + bytes) f.size - f.loaded = 0 := by omega
      simp [h, h0]
  · intro hinv p hp
    rw [hfiles] at hp
    rcases mem_assocSet _ _ _ _ hp with h | h
    · rw [h]
      simp
    · exact hinv p h

/-- Concrete progress state used by several witnesses: one tracked file
of size 10 with 4 loaded bytes. -/
def stW10 : ProgressState :=
  { mode := Mode.adaptive, totalBytes := 10, loadedBytes := 4,
    files := [("a", ⟨10, 4⟩)], activeFiles := ["a"], candidates := [],
    selectedManifest := none, pendingFetches := 0, idleTimer := false,
    finalized := false, lastBroadcast := 0, broadcastTimer := false,
    lastFile := "a" }

/-- C10 witness: an over-counted report of 100 bytes on the 10-byte file
clamps its counter at 10 and adds only 6 to `loadedBytes`. -/
theorem recordProgress_clamped_witness :
    alookup stW10.files "a" = some ⟨10, 4⟩ ∧
    alookup (recordProgress "a" 100 stW10).files "a" = some ⟨10, 10⟩ ∧
    (recordProgress "a" 100 stW10).loadedBytes = 4 + 6 :=
  ⟨by decide,
   (recordProgress_clamped "a" 100 stW10 ⟨10, 4⟩ (by decide)).1,
   (recordProgress_clamped "a" 100 stW10 ⟨10, 4⟩ (by decide)).2.2.1⟩

/-- `setFilesFromList`'s loop, run over the key list of an association
list with unique keys all present in the filemap, appends exactly one
fresh entry per key and accumulates the sizes. -/
theorem setFilesGo_append (fm : Filemap) :
    ∀ (ps : List (String × FmEntry)) (acc : List (String × FileProg)) (tot : Nat),
      (∀ p ∈ ps, alookup fm.files p.1 = some p.2) →
      (∀ p ∈ ps, p.1 ∉ acc.map Prod.fst) →
      (ps.map Prod.fst).Nodup →
      setFilesGo fm (ps.map Prod.fst) acc tot
        = (acc ++ ps.map (fun p => (p.1, ⟨p.2.size, 0⟩)),
           tot + (ps.map (fun p => p.2.size)).sum) := by
  intro ps
  induction ps with
  | nil => intro acc tot _ _ _; simp [setFilesGo]
  | cons p rest ih =>
      intro acc tot h1 h2 hnd
      obtain ⟨vp, en⟩ := p
      simp only [List.map_cons, List.nodup_cons] at hnd
      have hvp : alookup fm.files vp = some en :=
        h1 (vp, en) (List.mem_cons_self _ _)
      have hfresh : vp ∉ acc.map Prod.fst :=
        h2 (vp, en) (List.mem_cons_self _ _)
      simp only [List.map_cons]
      rw [setFilesGo, hvp]
      show setFilesGo fm (rest.map Prod.fst)
          (assocSet acc vp ⟨en.size, 0⟩) (tot + en.size) = _
      rw [assocSet_fresh acc vp ⟨en.size, 0⟩ hfresh]
      have hA : ∀ p ∈ rest, alookup fm.files p.1 = some p.2 :=
        fun q hq => h1 q (List.mem_cons_of_mem _ hq)
      have hB : ∀ p ∈ rest,
          p.1 ∉ (acc ++ [(vp, (⟨en.size, 0⟩ : FileProg))]).map Prod.fst := by
        intro q hq
        simp only [List.map_append, List.mem_append, List.map_cons,
          List.map_nil, List.mem_singleton]
        push_neg
        refine ⟨h2 q (List.mem_cons_of_mem _ hq), ?_⟩
        intro hqvp
        exact hnd.1 (hqvp ▸ List.mem_map.mpr ⟨q, hq, rfl⟩)
      rw [ih (acc ++ [(vp, (⟨en.size, 0⟩ : FileProg))]) (tot + en.size)
        hA hB hnd.2]
      simp [List.append_assoc, Nat.add_assoc]

/-- C7 (amended): in explicit mode with a manifest name absent from the
loaded filemap, `initProgressFromFilemap` degrades the tracked file set
to all files of the filemap (fallback behavior) while the `mode` field
stays `explicit` and the missing name stays selected. -/
theorem initProgress_missing_manifest_all_files (st : ProgressState)
    (fm : Filemap) (name : String)
    (hmode : st.mode = Mode.explicit)
    (hsel : st.selectedManifest = some name)
    (hmiss : alookup fm.manifests name = none)
    (hnd : (fm.files.map Prod.fst).Nodup) :
    (initProgressFromFilemap st fm).mode = Mode.explicit ∧
    (initProgressFromFilemap st fm).selectedManifest = some name ∧
    (initProgressFromFilemap st fm).files
      = fm.files.map (fun p => (p.1, ⟨p.2.size, 0⟩)) ∧
    (initProgressFromFilemap st fm).totalBytes
      = (fm.files.map (fun p => p.2.size)).sum := by
  have hset := setFilesGo_append fm fm.files [] 0
    (fun p hp => alookup_self_of_nodup fm.files hnd p.1 p.2 hp)
    (fun p _ => by simp)
    hnd
  have hinit : initProgressFromFilemap st fm
      = setFilesFromList st fm (fm.files.map Prod.fst) := by
    simp only [initProgressFromFilemap, hmode, if_pos, hsel, hmiss]
  rw [hinit]
  simp only [setFilesFromList, hset]
  exact ⟨hmode, hsel, by simp, by simp⟩

/-- Concrete filemap for the C7 counterexample/witness: one file, one
manifest named `A`. -/
def fmC7 : Filemap :=
  { files := [("a", ⟨10⟩)],
    manifests := [("A", { files := ["a"], size := 10 })] }

/-- A source registered with the (absent) manifest name `zz`. -/
def stC7 : ProgressState := makeProgressState "zz"

/-- C7 counterexample: the claim says the state degrades to fallback
*mode*; in the code the `mode` field remains `explicit` after the
missing-manifest branch of `initProgressFromFilemap`. -/
theorem initProgress_missing_manifest_mode_not_fallback :
    stC7.mode = Mode.explicit ∧
    alookup fmC7.manifests "zz" = none ∧
    (initProgressFromFilemap stC7 fmC7).mode ≠ Mode.fallback ∧
    (initProgressFromFilemap stC7 fmC7).mode = Mode.explicit := by
  refine ⟨rfl, by decide, by decide, by decide⟩

/-- C7 witness: the amended theorem applied to the concrete state. -/
theorem initProgress_missing_manifest_all_files_witness :
    (initProgressFromFilemap stC7 fmC7).files = [("a", ⟨10, 0⟩)] ∧
    (initProgressFromFilemap stC7 fmC7).totalBytes = 10 ∧
    (initProgressFromFilemap stC7 fmC7).mode = Mode.explicit := by
  have h := initProgress_missing_manifest_all_files stC7 fmC7 "zz"
    (by decide) (by decide) (by decide) (by decide)
  exact ⟨by rw [h.2.2.1]; rfl, by rw [h.2.2.2]; rfl, h.1⟩

/-! ## Filemap loading (loadFilemap of model-sw.js lines 1189-1208,
_loadFilemap of model-resolver-node.mjs lines 431-467)

Both loaders fetch (or read) the document, `JSON.parse` it, store it in
the filemap cache and return it; a fetch/parse failure clears the
pending slot and returns null.  Neither inspects the parsed document.
`loadFilemapStep` takes the memoized cache entry for the source key and
the fetch/parse outcome, and returns the new cache entry and the value
returned to the caller. -/
def loadFilemapStep (cache : Option Filemap) (fetched : Option Filemap) :
    Option Filemap × Option Filemap :=
  match cache with
  | some fm => (some fm, some fm)
  | none =>
      match fetched with
      | some data => (some data, some data)
      | none => (none, none)

/-- Modelled from the spec (§3, manifest entry invariant): a filemap's
manifest sizes are consistent when each manifest's `size` equals the sum
of `files[vp].size` over its listed virtual paths.  The loaders contain
no such check; this definition exists to state what the spec calls a
schema violation. -/
def manifestSizesOk (fm : Filemap) : Bool :=
  fm.manifests.all fun p =>
    p.2.size == ((p.2.files.map fun vp => fmSizeOf fm vp).sum)

/-- C8 (amended): the load operation performs no manifest-size schema
validation: any successfully fetched and parsed filemap — including one
whose manifest `size` disagrees with the sum of its files — is stored in
the cache and returned to the caller. -/
theorem loadFilemap_no_schema_check (fm : Filemap)
    (_hbad : manifestSizesOk fm = false) :
    loadFilemapStep none (some fm) = (some fm, some fm) := rfl

/-- A filemap whose only manifest declares `size = 99` while its single
file has size 3. -/
def fmC8 : Filemap :=
  { files := [("a", ⟨3⟩)],
    manifests := [("M", { files := ["a"], size := 99 })] }

/-- C8 counterexample: the claim says such a filemap is rejected at
load; the loader accepts it and returns it (no rejection path exists). -/
theorem loadFilemap_accepts_bad_manifest_size :
    manifestSizesOk fmC8 = false ∧
    loadFilemapStep none (some fmC8) = (some fmC8, some fmC8) ∧
    (loadFilemapStep none (some fmC8)).2 ≠ none := by
  refine ⟨by decide, rfl, by decide⟩

/-- C8 witness: the amended theorem applied to the concrete bad
filemap. -/
theorem loadFilemap_no_schema_check_witness :
    manifestSizesOk fmC8 = false ∧
    loadFilemapStep none (some fmC8) = (some fmC8, some fmC8) :=
  ⟨by decide, loadFilemap_no_schema_check fmC8 (by decide)⟩

/-! ### Lemmas about adaptive narrowing (C2) -/

theorem restoreLoaded_sum (saved : List (String × Nat)) :
    ∀ (fl : List (String × FileProg)),
      (restoreLoaded saved fl).2 = sumLoaded (restoreLoaded saved fl).1 := by
  intro fl
  induction fl with
  | nil => rfl
  | cons p rest ih =>
      obtain ⟨vp0, f0⟩ := p
      simp [restoreLoaded, sumLoaded_cons, ih]

theorem restoreLoaded_lookup (saved : List (String × Nat)) :
    ∀ (fl : List (String × FileProg)) (vp : String),
      alookup (restoreLoaded saved fl).1 vp
        = (alookup fl vp).map fun f =>
            { f with loaded := match alookup saved vp with
                               | some old => min old f.size
                               | none => f.loaded } := by
  intro fl
  induction fl with
  | nil => intro vp; simp [restoreLoaded, alookup]
  | cons p rest ih =>
      intro vp
      obtain ⟨vp0, f0⟩ := p
      by_cases h0 : vp0 = vp
      · subst h0
        simp [restoreLoaded, alookup]
      · simp [restoreLoaded, alookup, h0, ih]

theorem setFilesGo_lookup (fm : Filemap) :
    ∀ (ks : List String) (acc : List (String × FileProg)) (tot : Nat) (vp : String),
      alookup (setFilesGo fm ks acc tot).1 vp
        = if vp ∈ ks ∧ (alookup fm.files vp).isSome
          then (alookup fm.files vp).map (fun en => ⟨en.size, 0⟩)
          else alookup acc vp := by
  intro ks
  induction ks with
  | nil => intro acc tot vp; simp [setFilesGo]
  | cons k rest ih =>
      intro acc tot vp
      cases hk : alookup fm.files k with
      | none =>
          rw [setFilesGo, hk]
          show alookup (setFilesGo fm rest acc tot).1 vp = _
          rw [ih acc tot vp]
          by_cases hvk : vp = k
          · subst hvk
            simp [hk]
          · by_cases hvr : vp ∈ rest
            · simp [hvr, List.mem_cons]
            · simp [hvr, hvk, List.mem_cons]
      | some en =>
          rw [setFilesGo, hk]
          show alookup
            (setFilesGo fm rest (assocSet acc k ⟨en.size, 0⟩) (tot + en.size)).1 vp
            = _
          rw [ih _ _ vp]
          by_cases hvk : vp = k
          · subst hvk
            by_cases hvr : vp ∈ rest
            · simp [hvr, hk, List.mem_cons]
            · simp [hvr, hk, List.mem_cons, alookup_assocSet]
          · have hkv : k ≠ vp := fun h => hvk h.symm
            by_cases hvr : vp ∈ rest
            · simp [hvr, List.mem_cons, alookup_assocSet, hkv]
            · simp [hvr, hvk, List.mem_cons, alookup_assocSet, hkv]

/-- If every entry of `old` (unique keys) with a positive loaded count
has an entry in `new` under the same key with at least that loaded
count, the loaded sums are ordered. -/
theorem sumLoaded_mono :
    ∀ (old new : List (String × FileProg)),
      (old.map Prod.fst).Nodup →
      (∀ vp f, alookup old vp = some f → 0 < f.loaded →
        ∃ g, alookup new vp = some g ∧ f.loaded ≤ g.loaded) →
      sumLoaded old ≤ sumLoaded new := by
  intro old
  induction old with
  | nil => intro new _ _; simp [sumLoaded]
  | cons p rest ih =>
      intro new hnd h
      obtain ⟨vp, f⟩ := p
      simp only [List.map_cons, List.nodup_cons] at hnd
      rw [sumLoaded_cons2]
      have hrest : ∀ vp' f', alookup rest vp' = some f' → 0 < f'.loaded →
          ∃ g, alookup new vp' = some g ∧ f'.loaded ≤ g.loaded := by
        intro vp' f' hl hpos
        have hne : vp' ≠ vp := by
          intro he
          subst he
          exact hnd.1 (List.mem_map.mpr ⟨(vp', f'), alookup_mem _ _ _ hl, rfl⟩)
        have hvv : ¬ (vp = vp') := fun he => hne he.symm
        have hup : alookup ((vp, f) :: rest) vp' = some f' := by
          show (if vp = vp' then some f else alookup rest vp') = some f'
          rw [if_neg hvv]
          exact hl
        exact h vp' f' hup hpos
      by_cases hf : 0 < f.loaded
      · obtain ⟨g, hg, hle⟩ := h vp f (by simp [alookup]) hf
        obtain ⟨l1, l2, heq, -⟩ := alookup_split new vp g hg
        subst heq
        have hrest2 : ∀ vp' f', alookup rest vp' = some f' → 0 < f'.loaded →
            ∃ g', alookup (l1 ++ l2) vp' = some g' ∧ f'.loaded ≤ g'.loaded := by
          intro vp' f' hl hpos
          obtain ⟨g', hg', hle'⟩ := hrest vp' f' hl hpos
          have hne : vp' ≠ vp := by
            intro he
            subst he
            exact hnd.1 (List.mem_map.mpr ⟨(vp', f'), alookup_mem _ _ _ hl, rfl⟩)
          rw [alookup_append_ne l1 l2 vp vp' g hne] at hg'
          exact ⟨g', hg', hle'⟩
        have hsum := ih (l1 ++ l2) hnd.2 hrest2
        rw [sumLoaded_append] at hsum
        rw [sumLoaded_append, sumLoaded_cons2]
        omega
      · have := ih new hnd.2 hrest
        omega

theorem foldl_choice_mem (fm : Filemap) :
    ∀ (l : List String) (a : String),
      l.foldl (fun a b => if mSize fm b ≤ mSize fm a then a else b) a ∈ a :: l := by
  intro l
  induction l with
  | nil => intro a; simp
  | cons x rest ih =>
      intro a
      simp only [List.foldl_cons]
      by_cases h : mSize fm x ≤ mSize fm a
      · rw [if_pos h]
        rcases List.mem_cons.mp (ih a) with h1 | h1
        · rw [h1]; exact List.mem_cons_self _ _
        · exact List.mem_cons_of_mem _ (List.mem_cons_of_mem _ h1)
      · rw [if_neg h]
        rcases List.mem_cons.mp (ih x) with h1 | h1
        · rw [h1]; exact List.mem_cons_of_mem _ (List.mem_cons_self _ _)
        · exact List.mem_cons_of_mem _ (List.mem_cons_of_mem _ h1)

theorem reduceLargest_mem (fm : Filemap) (l : List String) (hne : l ≠ []) :
    reduceLargest fm l ∈ l := by
  cases l with
  | nil => exact absurd rfl hne
  | cons n rest => exact foldl_choice_mem fm rest n

/-- C2 (amended): a narrowing step preserves per-file byte counts
clamped under the new file set; `loadedBytes` does not decrease
provided every tracked file carrying loaded bytes belongs to every
candidate manifest's file list (hence to the newly selected one) with a
filemap size at least its loaded count.  (Without that side condition
the counterexample shows a decrease.) -/
theorem narrowManifest_mono (fm : Filemap) (relPath : String)
    (st : ProgressState)
    (hsum : st.loadedBytes = sumLoaded st.files)
    (hnd : (st.files.map Prod.fst).Nodup)
    (hcov : ∀ name ∈ st.candidates, ∀ p ∈ st.files, 0 < p.2.loaded →
      p.1 ∈ manifestFilesOf fm name ∧ (alookup fm.files p.1).isSome = true ∧
      p.2.loaded ≤ fmSizeOf fm p.1) :
    st.loadedBytes ≤ (narrowManifest fm relPath st).loadedBytes := by
  simp only [narrowManifest]
  split
  · exact le_refl _
  · split
    · exact le_refl _
    · split
      · exact le_refl _
      · next h1 h2 h3 =>
          show st.loadedBytes ≤
            (restoreLoaded (st.files.map fun p => (p.1, p.2.loaded))
              (setFilesGo fm
                (manifestFilesOf fm (reduceLargest fm (st.candidates.filter fun n =>
                  match alookup fm.manifests n with
                  | some m => decide (relPath ∈ m.files)
                  | none => false))) [] 0).1).2
          set P : String → Bool := fun n =>
            match alookup fm.manifests n with
            | some m => decide (relPath ∈ m.files)
            | none => false with hP
          have hfne : st.candidates.filter P ≠ [] := by
            intro hnil
            apply h2
            left
            rw [hnil]
            rfl
          have hlarc : reduceLargest fm (st.candidates.filter P) ∈ st.candidates :=
            List.mem_of_mem_filter (reduceLargest_mem fm _ hfne)
          set L := reduceLargest fm (st.candidates.filter P) with hL
          set saved := st.files.map (fun p => (p.1, p.2.loaded)) with hsaved
          set flnew := (setFilesGo fm (manifestFilesOf fm L) [] 0).1 with hfl
          rw [hsum, restoreLoaded_sum saved flnew]
          apply sumLoaded_mono st.files (restoreLoaded saved flnew).1 hnd
          intro vp f hvf hpos
          have hmem : (vp, f) ∈ st.files := alookup_mem _ _ _ hvf
          obtain ⟨hin, hsome, hle⟩ := hcov L hlarc (vp, f) hmem hpos
          cases hen : alookup fm.files vp with
          | none => rw [hen] at hsome; simp at hsome
          | some en =>
              have hfsz : f.loaded ≤ en.size := by
                have := hle
                simp only [fmSizeOf, hen] at this
                exact this
              have hlookup0 : alookup flnew vp = some ⟨en.size, 0⟩ := by
                rw [hfl, setFilesGo_lookup]
                rw [if_pos ⟨hin, by rw [hen]; rfl⟩, hen]
                rfl
              have hsaved_vp : alookup saved vp = some f.loaded := by
                rw [hsaved, alookup_map_loaded, hvf]
                rfl
              refine ⟨⟨en.size, min f.loaded en.size⟩, ?_, ?_⟩
              · rw [restoreLoaded_lookup, hlookup0]
                simp [hsaved_vp]
              · show f.loaded ≤ min f.loaded en.size
                omega

/-- Filemap for the C2 counterexample: manifests `A = {a}` and
`B = {b}`; the file `x` belongs to no manifest. -/
def fmC2 : Filemap :=
  { files := [("a", ⟨10⟩), ("b", ⟨20⟩), ("x", ⟨10⟩)],
    manifests := [("A", { files := ["a"], size := 10 }),
                  ("B", { files := ["b"], size := 20 })] }

/-- Adaptive state after selecting `B` and then fully reading `x` (a
file tracked by `trackFile` but absent from every manifest):
`loadedBytes = 10`. -/
def stC2 : ProgressState :=
  { mode := Mode.adaptive, totalBytes := 30, loadedBytes := 10,
    files := [("b", ⟨20, 0⟩), ("x", ⟨10, 10⟩)], activeFiles := ["x"],
    candidates := ["A", "B"], selectedManifest := some "B",
    pendingFetches := 0, idleTimer := false, finalized := false,
    lastBroadcast := 0, broadcastTimer := false, lastFile := "x" }

/-- C2 counterexample: a request for `a` (present only in manifest `A`)
narrows the candidates to `A` and repopulates the file set, dropping the
10 loaded bytes of `x`: `loadedBytes` decreases from 10 to 0, so the
claimed never-decrease (and hence percent monotonicity) fails. -/
theorem narrowManifest_decreases_loadedBytes :
    stC2.loadedBytes = 10 ∧
    (narrowManifest fmC2 "a" stC2).loadedBytes = 0 ∧
    ¬ (stC2.loadedBytes ≤ (narrowManifest fmC2 "a" stC2).loadedBytes) := by
  refine ⟨rfl, by decide, by decide⟩

/-- Filemap for the C2 witness: `A = {a, c}` (15 bytes),
`B = {a, b}` (30 bytes); every tracked loaded file is in both. -/
def fmW2 : Filemap :=
  { files := [("a", ⟨10⟩), ("b", ⟨20⟩), ("c", ⟨5⟩)],
    manifests := [("A", { files := ["a", "c"], size := 15 }),
                  ("B", { files := ["a", "b"], size := 30 })] }

/-- Adaptive state with 5 bytes loaded on `a` (a file of every
candidate manifest). -/
def stW2 : ProgressState :=
  { mode := Mode.adaptive, totalBytes := 30, loadedBytes := 5,
    files := [("a", ⟨10, 5⟩), ("b", ⟨20, 0⟩)], activeFiles := ["a"],
    candidates := ["A", "B"], selectedManifest := some "B",
    pendingFetches := 0, idleTimer := false, finalized := false,
    lastBroadcast := 0, broadcastTimer := false, lastFile := "a" }

/-- C2 witness: requesting `c` narrows `B → A` and the 5 loaded bytes of
`a` survive the repopulation: `loadedBytes` does not decrease. -/
theorem narrowManifest_mono_witness :
    stW2.loadedBytes ≤ (narrowManifest fmW2 "c" stW2).loadedBytes ∧
    (narrowManifest fmW2 "c" stW2).selectedManifest = some "A" :=
  ⟨narrowManifest_mono fmW2 "c" stW2 (by decide) (by decide) (by decide),
   by decide⟩

/-- C6 (amended): `finalizeProgress` on a not-yet-finalized state emits
exactly one event, that event carries `done = true`, and the state
becomes finalized; a second `finalizeProgress` is a no-op (so the
finalization path itself emits exactly one `done` event).  Events after
finalization are not prevented: see the counterexample. -/
theorem finalizeProgress_emits_one_done (pp : String) (now : Nat)
    (st : ProgressState) :
    (st.finalized = false →
      (finalizeProgress pp now st).2.length = 1 ∧
      (∀ m ∈ (finalizeProgress pp now st).2, m.done = true) ∧
      (finalizeProgress pp now st).1.finalized = true) ∧
    (st.finalized = true → finalizeProgress pp now st = (st, [])) := by
  constructor
  · intro h
    simp only [finalizeProgress, h, Bool.false_eq_true, if_false]
    refine ⟨rfl, ?_, rfl⟩
    intro m hm
    simp only [List.mem_singleton] at hm
    rw [hm]
    simp [doBroadcast]
  · intro h
    simp [finalizeProgress, h]

/-- The pre-finalization state for the C6 counterexample (one active
file, 4 of 10 bytes loaded, not finalized). -/
def stPreC6 : ProgressState := stW10

/-- The state right after finalization. -/
def stC6 : ProgressState := (finalizeProgress "/m/" 100 stPreC6).1

/-- C6 counterexample: the claim says no further progress events are
emitted after finalization until a fresh init; but `scheduleProgress`
on the finalized state takes the immediate `isDone` branch and emits
another event (itself carrying `done = true`). -/
theorem scheduleProgress_after_finalize_emits :
    stC6.finalized = true ∧
    (scheduleProgress "/m/" 1000 stC6).2.isSome = true ∧
    (∀ m, (scheduleProgress "/m/" 1000 stC6).2 = some m → m.done = true) := by
  refine ⟨by decide, by decide, ?_⟩
  intro m hm
  have : (scheduleProgress "/m/" 1000 stC6).2.map ProgressMsg.done = some true := by
    decide
  rw [hm] at this
  simpa using this

/-- C6 witness: the amended theorem applied to the concrete
pre-finalization state. -/
theorem finalizeProgress_emits_one_done_witness :
    stPreC6.finalized = false ∧
    (finalizeProgress "/m/" 100 stPreC6).2.length = 1 ∧
    (finalizeProgress "/m/" 100 stPreC6).1.finalized = true :=
  ⟨rfl,
   ((finalizeProgress_emits_one_done "/m/" 100 stPreC6).1 rfl).1,
   ((finalizeProgress_emits_one_done "/m/" 100 stPreC6).1 rfl).2.2⟩

/-! ## Shard fetching with cache write-through

`swFetchShardTask` embeds the in-flight task body of `fetchShard` in
model-sw.js (lines 1142-1152): fetch, throw on a non-ok status, read
the buffer, attempt the cache put inside its own `try { } catch (_) {}`
(failure swallowed), and resolve with the buffer.  `nodeFetchShardBuf`
embeds `_fetchShardBuf` of model-resolver-node.mjs (lines 357-377): a
cache-hit short circuit, then a retry loop whose single `catch` covers
both the fetch and the `mkdirSync`/`writeFileSync` cache write; after
the last attempt the last error is thrown. -/

/-- The service-worker task body: `fetchRes` is the outcome of
`fetch` + `arrayBuffer`, `putOk` whether the Cache Storage put
succeeds.  Returns the task result and whether the cache was written. -/
def swFetchShardTask (fetchRes : Except String (List Nat)) (putOk : Bool) :
    Except String (List Nat) × Bool :=
  match fetchRes with
  | .error e => (.error e, false)
  | .ok buf => (.ok buf, putOk)

/-- The retry loop of `_fetchShardBuf`: `fetchRes i` is the outcome of
attempt `i`'s fetch, `writeOk i` whether its cache write succeeds; a
write failure is caught by the same `catch` as a fetch failure and
retried, and the loop's fuel is the remaining attempt count. -/
def nodeFetchGo (fetchRes : Nat → Except String (List Nat))
    (writeOk : Nat → Bool) :
    Nat → Nat → Option String → Except String (List Nat)
  | 0, _, lastErr => .error (lastErr.getD "no attempts")
  | fuel + 1, i, _ =>
      match fetchRes i with
      | .error e => nodeFetchGo fetchRes writeOk fuel (i + 1) (some e)
      | .ok buf =>
          if writeOk i then .ok buf
          else nodeFetchGo fetchRes writeOk fuel (i + 1)
            (some "cache write failed")

/-- `_fetchShardBuf(url)`: cached-file short circuit, then the retry
loop over `retries` attempts. -/
def nodeFetchShardBuf (retries : Nat) (cached : Option (List Nat))
    (fetchRes : Nat → Except String (List Nat)) (writeOk : Nat → Bool) :
    Except String (List Nat) :=
  match cached with
  | some b => .ok b
  | none => nodeFetchGo fetchRes writeOk retries 0 none

theorem nodeFetchGo_all_write_fail (fetchRes : Nat → Except String (List Nat))
    (writeOk : Nat → Bool)
    (hfetch : ∀ i, (fetchRes i).isOk = true)
    (hwrite : ∀ i, writeOk i = false) :
    ∀ (fuel i : Nat), 0 < fuel →
      nodeFetchGo fetchRes writeOk fuel i (some "cache write failed")
        = .error "cache write failed" := by
  intro fuel
  induction fuel with
  | zero => intro i h; omega
  | succ n ih =>
      intro i _
      rw [nodeFetchGo]
      cases hf : fetchRes i with
      | error e => have := hfetch i; rw [hf] at this; simp [Except.isOk, Except.toBool] at this
      | ok buf =>
          rw [hwrite i]
          simp only [Bool.false_eq_true, if_false]
          cases n with
          | zero => rfl
          | succ m => exact ih (i + 1) (by omega)

/-- C9 (amended): in the service worker `fetchShard`, a cache-put
failure is swallowed and the fetched buffer is still returned; in the
Node resolver `_fetchShardBuf`, a cache write failure is caught by the
retry loop like a fetch failure, and when the write keeps failing the
call fails even though every network fetch succeeded. -/
theorem fetchShard_cache_write_behavior (buf : List Nat) (putOk : Bool)
    (retries : Nat) (fetchRes : Nat → Except String (List Nat))
    (writeOk : Nat → Bool)
    (hr : 0 < retries)
    (hfetch : ∀ i, (fetchRes i).isOk = true)
    (hwrite : ∀ i, writeOk i = false) :
    (swFetchShardTask (.ok buf) putOk).1 = .ok buf ∧
    nodeFetchShardBuf retries none fetchRes writeOk
      = .error "cache write failed" := by
  constructor
  · rfl
  · show nodeFetchGo fetchRes writeOk retries 0 none = _
    cases retries with
    | zero => omega
    | succ n =>
        rw [nodeFetchGo]
        cases hf : fetchRes 0 with
        | error e =>
            have := hfetch 0
            rw [hf] at this
            simp [Except.isOk, Except.toBool] at this
        | ok b =>
            rw [hwrite 0]
            simp only [Bool.false_eq_true, if_false]
            cases n with
            | zero => rfl
            | succ m =>
                exact nodeFetchGo_all_write_fail fetchRes writeOk hfetch hwrite
                  (m + 1) (0 + 1) (by omega)

/-- C9 counterexample: with three attempts, a network that always
returns `[1, 2, 3]` and a cache whose writes always fail, the Node
resolver's read fails instead of returning the fetched bytes — the
cache write failure is fatal on this path. -/
theorem nodeFetchShardBuf_write_failure_fatal :
    nodeFetchShardBuf 3 none (fun _ => Except.ok [1, 2, 3]) (fun _ => false)
      = Except.error "cache write failed" ∧
    nodeFetchShardBuf 3 none (fun _ => Except.ok [1, 2, 3]) (fun _ => false)
      ≠ Except.ok [1, 2, 3] := by
  have h1 : nodeFetchShardBuf 3 none (fun _ => Except.ok [1, 2, 3])
      (fun _ => false) = Except.error "cache write failed" := rfl
  refine ⟨h1, ?_⟩
  rw [h1]
  intro h
  exact Except.noConfusion h

/-- C9 witness: the amended theorem applied to the concrete oracles. -/
theorem fetchShard_cache_write_behavior_witness :
    (swFetchShardTask (Except.ok [9, 9]) false).1 = Except.ok [9, 9] ∧
    nodeFetchShardBuf 3 none (fun _ => Except.ok [1, 2, 3]) (fun _ => false)
      = Except.error "cache write failed" :=
  fetchShard_cache_write_behavior [9, 9] false 3
    (fun _ => Except.ok [1, 2, 3]) (fun _ => false)
    (by decide) (fun _ => rfl) (fun _ => rfl)

/-! ## In-flight shard fetch deduplication (fetchShard of model-sw.js
lines 1126-1159)

`fetchShard` runs on a single-threaded event loop; its synchronous
segments between `await`s are atomic.  `DedupStep` is a small-step
semantics over a pool of concurrent `fetchShard` calls (tasks), one
constructor per segment:

* `cacheHit`/`cacheMiss` — the awaited Cache Storage check
  (`caches.open` + `c.match`), resolving from the cache or proceeding;
* `joinTask` — `shardInflight.has(url)` is true: the caller awaits the
  existing promise (its later completion is `joinDone`, which returns a
  copy `buf.slice(0)` of the recorded outcome);
* `beginFetch` — `shardInflight.has(url)` is false: the task body
  starts (initiating the network fetch) and
  `shardInflight.set(url, promise)` runs in the same synchronous
  segment;
* `fetchOk`/`fetchFail` — the network settles; on success the buffer
  is written through to the cache (`putOk` false models a swallowed
  cache-put failure) and the promise's outcome is recorded;
* `cleanup` — the `finally { shardInflight.delete(url) }` of the
  awaiting caller, run on success and failure alike. -/

/-- Outcome of a network fetch. -/
inductive FetchOutcome where
  | ok (bytes : List Nat)
  | fail
deriving DecidableEq, Repr

/-- The value a caller resolves with: the bytes, or `none` for a
rejection. -/
def outBytes : FetchOutcome → Option (List Nat)
  | .ok b => some b
  | .fail => none

/-- Program counter of one `fetchShard` call. -/
inductive TaskPc where
  | start
  | ready
  | fetching
  | settled (out : FetchOutcome)
  | joined
  | done (res : Option (List Nat))
deriving DecidableEq, Repr

/-- One `fetchShard` call. -/
structure Task where
  url : String
  pc : TaskPc
deriving DecidableEq, Repr

/-- Global state: the task pool, the `shardInflight` key set, the Cache
Storage contents and the settled promise outcomes per url. -/
structure DedupState where
  tasks : List Task
  inflight : List String
  cache : List (String × List Nat)
  results : List (String × FetchOutcome)
deriving Repr

inductive DedupStep : DedupState → DedupState → Prop where
  | cacheHit (pre post : List Task) (inflight : List String)
      (cache : List (String × List Nat))
      (results : List (String × FetchOutcome)) (url : String) (b : List Nat) :
      alookup cache url = some b →
      DedupStep ⟨pre ++ ⟨url, .start⟩ :: post, inflight, cache, results⟩
                ⟨pre ++ ⟨url, .done (some b)⟩ :: post, inflight, cache, results⟩
  | cacheMiss (pre post : List Task) (inflight : List String)
      (cache : List (String × List Nat))
      (results : List (String × FetchOutcome)) (url : String) :
      alookup cache url = none →
      DedupStep ⟨pre ++ ⟨url, .start⟩ :: post, inflight, cache, results⟩
                ⟨pre ++ ⟨url, .ready⟩ :: post, inflight, cache, results⟩
  | joinTask (pre post : List Task) (inflight : List String)
      (cache : List (String × List Nat))
      (results : List (String × FetchOutcome)) (url : String) :
      url ∈ inflight →
      DedupStep ⟨pre ++ ⟨url, .ready⟩ :: post, inflight, cache, results⟩
                ⟨pre ++ ⟨url, .joined⟩ :: post, inflight, cache, results⟩
  | beginFetch (pre post : List Task) (inflight : List String)
      (cache : List (String × List Nat))
      (results : List (String × FetchOutcome)) (url : String) :
      url ∉ inflight →
      DedupStep ⟨pre ++ ⟨url, .ready⟩ :: post, inflight, cache, results⟩
                ⟨pre ++ ⟨url, .fetching⟩ :: post, url :: inflight, cache, results⟩
  | fetchOk (pre post : List Task) (inflight : List String)
      (cache : List (String × List Nat))
      (results : List (String × FetchOutcome)) (url : String) (b : List Nat)
      (putOk : Bool) :
      DedupStep ⟨pre ++ ⟨url, .fetching⟩ :: post, inflight, cache, results⟩
                ⟨pre ++ ⟨url, .settled (.ok b)⟩ :: post, inflight,
                 if putOk then assocSet cache url b else cache,
                 assocSet results url (.ok b)⟩
  | fetchFail (pre post : List Task) (inflight : List String)
      (cache : List (String × List Nat))
      (results : List (String × FetchOutcome)) (url : String) :
      DedupStep ⟨pre ++ ⟨url, .fetching⟩ :: post, inflight, cache, results⟩
                ⟨pre ++ ⟨url, .settled .fail⟩ :: post, inflight, cache,
                 assocSet results url .fail⟩
  | cleanup (pre post : List Task) (inflight : List String)
      (cache : List (String × List Nat))
      (results : List (String × FetchOutcome)) (url : String)
      (out : FetchOutcome) :
      DedupStep ⟨pre ++ ⟨url, .settled out⟩ :: post, inflight, cache, results⟩
                ⟨pre ++ ⟨url, .done (outBytes out)⟩ :: post,
                 inflight.erase url, cache, results⟩
  | joinDone (pre post : List Task) (inflight : List String)
      (cache : List (String × List Nat))
      (results : List (String × FetchOutcome)) (url : String)
      (out : FetchOutcome) :
      alookup results url = some out →
      DedupStep ⟨pre ++ ⟨url, .joined⟩ :: post, inflight, cache, results⟩
                ⟨pre ++ ⟨url, .done (outBytes out)⟩ :: post, inflight, cache,
                 results⟩

/-- Reachability from an initial state: any pool of fresh calls, empty
in-flight map, any pre-existing cache, no settled promises. -/
inductive DedupReach : DedupState → Prop where
  | init (urls : List String) (cache : List (String × List Nat)) :
      DedupReach ⟨urls.map fun u => ⟨u, .start⟩, [], cache, []⟩
  | step {s s' : DedupState} :
      DedupReach s → DedupStep s s' → DedupReach s'

/-- A task owning the in-flight entry for its url: its body is between
`shardInflight.set` and the caller's `finally` delete. -/
def isOwnerPc : TaskPc → Bool
  | .fetching => true
  | .settled _ => true
  | _ => false

/-- A task whose network fetch is in progress. -/
def isFetchingPc : TaskPc → Bool
  | .fetching => true
  | _ => false

def ownerCount (s : DedupState) (url : String) : Nat :=
  s.tasks.countP fun t => decide (t.url = url) && isOwnerPc t.pc

def fetchingCount (s : DedupState) (url : String) : Nat :=
  s.tasks.countP fun t => decide (t.url = url) && isFetchingPc t.pc

/-- The dedup invariant: the in-flight key set has no duplicates, each
url has at most one owning task, and a url is in flight exactly when an
owning task exists. -/
def DedupInv (s : DedupState) : Prop :=
  s.inflight.Nodup ∧
  ∀ url, ownerCount s url ≤ 1 ∧ (url ∈ s.inflight ↔ ownerCount s url = 1)

theorem countP_middle (p : Task → Bool) (pre post : List Task) (t : Task) :
    (pre ++ t :: post).countP p
      = pre.countP p + post.countP p + (if p t then 1 else 0) := by
  rw [List.countP_append, List.countP_cons]
  omega

/-- Steps that only change a task's pc between two non-owning (or two
owning) states, and possibly the cache/results, preserve the dedup
invariant. -/
theorem dedupInv_retask (pre post : List Task) (inflight : List String)
    (cache cache' : List (String × List Nat))
    (results results' : List (String × FetchOutcome)) (t t' : Task)
    (hurl : t'.url = t.url) (hown : isOwnerPc t'.pc = isOwnerPc t.pc)
    (hinv : DedupInv ⟨pre ++ t :: post, inflight, cache, results⟩) :
    DedupInv ⟨pre ++ t' :: post, inflight, cache', results'⟩ := by
  obtain ⟨hnd, h⟩ := hinv
  refine ⟨hnd, fun url => ?_⟩
  have hc : ownerCount ⟨pre ++ t' :: post, inflight, cache', results'⟩ url
      = ownerCount ⟨pre ++ t :: post, inflight, cache, results⟩ url := by
    have hif : (decide (t'.url = url) && isOwnerPc t'.pc)
        = (decide (t.url = url) && isOwnerPc t.pc) := by
      rw [hurl, hown]
    simp only [ownerCount, countP_middle, hif]
  rw [hc]
  exact h url

theorem dedupInv_step {s s' : DedupState} (hs : DedupStep s s')
    (hinv : DedupInv s) : DedupInv s' := by
  cases hs with
  | cacheHit pre post inflight cache results url b hcache =>
      exact dedupInv_retask pre post inflight cache cache results results
        ⟨url, .start⟩ ⟨url, .done (some b)⟩ rfl rfl hinv
  | cacheMiss pre post inflight cache results url hcache =>
      exact dedupInv_retask pre post inflight cache cache results results
        ⟨url, .start⟩ ⟨url, .ready⟩ rfl rfl hinv
  | joinTask pre post inflight cache results url hmem =>
      exact dedupInv_retask pre post inflight cache cache results results
        ⟨url, .ready⟩ ⟨url, .joined⟩ rfl rfl hinv
  | joinDone pre post inflight cache results url out hres =>
      exact dedupInv_retask pre post inflight cache cache results results
        ⟨url, .joined⟩ ⟨url, .done (outBytes out)⟩ rfl rfl hinv
  | fetchOk pre post inflight cache results url b putOk =>
      exact dedupInv_retask pre post inflight cache
        (if putOk then assocSet cache url b else cache) results
        (assocSet results url (.ok b))
        ⟨url, .fetching⟩ ⟨url, .settled (.ok b)⟩ rfl rfl hinv
  | fetchFail pre post inflight cache results url =>
      exact dedupInv_retask pre post inflight cache cache results
        (assocSet results url .fail)
        ⟨url, .fetching⟩ ⟨url, .settled .fail⟩ rfl rfl hinv
  | beginFetch pre post inflight cache results url0 hnot =>
      obtain ⟨hnd, h⟩ := hinv
      refine ⟨List.nodup_cons.mpr ⟨hnot, hnd⟩, fun url => ?_⟩
      obtain ⟨hle, hiff⟩ := h url
      have key : ownerCount
            ⟨pre ++ ⟨url0, .fetching⟩ :: post, url0 :: inflight, cache, results⟩ url
          = ownerCount
              ⟨pre ++ ⟨url0, .ready⟩ :: post, inflight, cache, results⟩ url
            + (if url0 = url then 1 else 0) := by
        simp only [ownerCount, countP_middle]
        by_cases hu : url0 = url <;> simp [hu, isOwnerPc]
      rw [key]
      by_cases hu : url0 = url
      · subst hu
        have hne1 : ¬ (ownerCount
            ⟨pre ++ ⟨url0, .ready⟩ :: post, inflight, cache, results⟩ url0 = 1) :=
          fun h1 => hnot (hiff.mpr h1)
        have hz : ownerCount
            ⟨pre ++ ⟨url0, .ready⟩ :: post, inflight, cache, results⟩ url0 = 0 := by
          omega
        rw [hz]
        simp
      · simp only [if_neg hu, Nat.add_zero]
        refine ⟨hle, ?_⟩
        rw [List.mem_cons]
        constructor
        · intro hmem
          rcases hmem with he | hm
          · exact absurd he.symm hu
          · exact hiff.mp hm
        · intro hc
          exact Or.inr (hiff.mpr hc)
  | cleanup pre post inflight cache results url0 out =>
      obtain ⟨hnd, h⟩ := hinv
      refine ⟨hnd.erase url0, fun url => ?_⟩
      obtain ⟨hle, hiff⟩ := h url
      have key : ownerCount
            ⟨pre ++ ⟨url0, .done (outBytes out)⟩ :: post,
             inflight.erase url0, cache, results⟩ url
            + (if url0 = url then 1 else 0)
          = ownerCount
              ⟨pre ++ ⟨url0, .settled out⟩ :: post, inflight, cache, results⟩ url := by
        simp only [ownerCount, countP_middle]
        by_cases hu : url0 = url <;> simp [hu, isOwnerPc]
      by_cases hu : url0 = url
      · subst hu
        rw [if_pos rfl] at key
        have hz : ownerCount
            ⟨pre ++ ⟨url0, .done (outBytes out)⟩ :: post,
             inflight.erase url0, cache, results⟩ url0 = 0 := by
          omega
        rw [hz]
        have hmem : url0 ∉ inflight.erase url0 := hnd.not_mem_erase
        simp [hmem]
      · rw [if_neg hu, Nat.add_zero] at key
        rw [key]
        refine ⟨hle, ?_⟩
        rw [List.mem_erase_of_ne (fun he => hu he.symm)]
        exact hiff

theorem dedupInv_reach {s : DedupState} (h : DedupReach s) : DedupInv s := by
  induction h with
  | init urls cache =>
      refine ⟨List.nodup_nil, fun url => ?_⟩
      have hz : ownerCount ⟨urls.map fun u => ⟨u, .start⟩, [], cache, []⟩ url = 0 := by
        simp only [ownerCount]
        rw [List.countP_eq_zero]
        intro t ht
        obtain ⟨u, -, hu⟩ := List.mem_map.mp ht
        rw [← hu]
        simp [isOwnerPc]
      rw [hz]
      simp
  | step _ hstep ih => exact dedupInv_step hstep ih

/-- C3: in every reachable state of the interleaving semantics of
concurrent `fetchShard` calls, at most one network fetch is in progress
per shard URL; a URL is in the `shardInflight` map exactly while one
call owns it (between its atomic check-and-set segment and its
`finally` delete, which runs on success and failure alike — the
`cleanup` step of the relation — so after completion the map entry is
gone and a later caller can fetch again); and the map never holds
duplicate entries.  Joiners (`joinTask`/`joinDone`) never fetch: they
resolve with a copy of the recorded outcome of the owner's promise. -/
theorem fetchShard_dedup_invariant (s : DedupState) (h : DedupReach s) :
    (∀ url, fetchingCount s url ≤ 1) ∧
    (∀ url, url ∈ s.inflight ↔ ownerCount s url = 1) ∧
    s.inflight.Nodup := by
  obtain ⟨hnd, hinv⟩ := dedupInv_reach h
  refine ⟨fun url => ?_, fun url => (hinv url).2, hnd⟩
  have hle : fetchingCount s url ≤ ownerCount s url := by
    apply List.countP_mono_left
    intro t _ ht
    simp only [Bool.and_eq_true, decide_eq_true_eq] at ht ⊢
    refine ⟨ht.1, ?_⟩
    cases hpc : t.pc <;> rw [hpc] at ht <;> simp_all [isFetchingPc, isOwnerPc]
  exact le_trans hle (hinv url).1

/-- Two concurrent calls for the same URL, before any step. -/
def dedupS0 : DedupState :=
  ⟨[⟨"u", .start⟩, ⟨"u", .start⟩], [], [], []⟩

/-- After the first call's cache miss. -/
def dedupS1 : DedupState :=
  ⟨[⟨"u", .ready⟩, ⟨"u", .start⟩], [], [], []⟩

/-- After the first call's atomic check-and-set: it owns the in-flight
entry and its fetch is in progress. -/
def dedupS2 : DedupState :=
  ⟨[⟨"u", .fetching⟩, ⟨"u", .start⟩], ["u"], [], []⟩

/-- C3 witness: the invariant theorem applied to a concrete reachable
state with one fetch in progress. -/
theorem fetchShard_dedup_invariant_witness :
    fetchingCount dedupS2 "u" ≤ 1 ∧
    ("u" ∈ dedupS2.inflight ↔ ownerCount dedupS2 "u" = 1) := by
  have h0 : DedupReach dedupS0 := DedupReach.init ["u", "u"] []
  have h1 : DedupStep dedupS0 dedupS1 :=
    DedupStep.cacheMiss [] [⟨"u", .start⟩] [] [] [] "u" rfl
  have h2 : DedupStep dedupS1 dedupS2 :=
    DedupStep.beginFetch [] [⟨"u", .start⟩] [] [] [] "u" (by simp)
  have h := fetchShard_dedup_invariant dedupS2
    (DedupReach.step (DedupReach.step h0 h1) h2)
  exact ⟨h.1 "u", h.2.1 "u"⟩
